import Mathlib

/-!
# Verification of the formula-tree engine (`formula_manager.py`)

This file is a shallow embedding of the `FormulaManager` class of
`src/formula_manager.py` into Lean 4, together with proofs that settle the
frozen claims about the engine.

Modelling conventions:
* A Python formula dict becomes the `Formula` structure; ids are `Int`
  (Python ints), the two status labels stay the literal strings of the source.
* Calendar dates are modelled as integers (a day number); `date.today()`
  becomes an explicit `today : Int` argument of the operations that read the
  clock.  `d1 < d2` on day numbers corresponds to Python date comparison and
  `timedelta(days = 7)` to subtracting `7`.
* The `active_tree_progress` Python dict is an association list
  `List (Int × Int)` with insertion-order semantics (`dictLookup`, `dictSet`,
  `dictDel` mirror `d[k]`, `d[k] = v`, `del d[k]`).
* Every mutating method returns `(result, new state, number of times
  `_save_data` ran)`; the injected persistence callback fires exactly
  `saves` times (`_save_data` calls it whenever it is present).
* Python truthiness of `parent_id` (`if parent_id:` is `False` for both
  `None` and `0`) is modelled by `pyTruthyOptInt`.
* `remove_formula`'s recursive `get_descendants` is a genuinely recursive
  Python function; the embedding `descend` uses explicit recursion depth
  `fs.length + 1`, which is shown to compute the full reflexive-transitive
  parent closure on rank-ordered (acyclic) forests.
-/

/-- One formula node: the dict
`{"id", "name", "parent", "children", "status", "last_active_time"}`
of `formula_manager.py`. -/
structure Formula where
  id : Int
  name : String
  parent : Option Int
  children : List Int
  status : String
  last_active_time : Option Int
deriving Repr, DecidableEq

/-- The mutable state of a `FormulaManager` instance: `self._formulas`,
`self.last_addition_date`, `self.active_tree_progress`. -/
structure FMState where
  formulas : List Formula
  last_addition_date : Option Int
  active_tree_progress : List (Int × Int)
deriving Repr, DecidableEq

/-- Python dict lookup `d[k]` (as an `Option`): first binding of the key. -/
def dictLookup (d : List (Int × Int)) (k : Int) : Option Int :=
  (d.find? (fun p => p.1 == k)).map (fun p => p.2)

/-- Python dict membership `k in d`. -/
def dictContains (d : List (Int × Int)) (k : Int) : Bool :=
  d.any (fun p => p.1 == k)

/-- Python dict update `d[k] = v`: overwrite in place if the key is present,
append at the end otherwise (insertion-order semantics). -/
def dictSet (d : List (Int × Int)) (k : Int) (v : Int) : List (Int × Int) :=
  if dictContains d k then d.map (fun p => if p.1 == k then (k, v) else p)
  else d ++ [(k, v)]

/-- Python dict deletion `del d[k]`. -/
def dictDel (d : List (Int × Int)) (k : Int) : List (Int × Int) :=
  d.filter (fun p => p.1 != k)

/-- Source `_load_default_formulas`: the seeded 4-node demo forest.  The source
stamps the two active nodes with `date.today().isoformat()`, hence the
`today` argument. -/
def defaultFormulas (today : Int) : List Formula :=
  [ { id := 1, name := "A定式", parent := none, children := [2, 3],
      status := "活跃", last_active_time := some today },
    { id := 2, name := "B定式", parent := some 1, children := [4],
      status := "活跃", last_active_time := some today },
    { id := 3, name := "C定式", parent := some 1, children := [],
      status := "未执行", last_active_time := none },
    { id := 4, name := "D定式", parent := some 2, children := [],
      status := "未执行", last_active_time := none } ]

/-- The state right after `__init__` (no snapshot loaded yet). -/
def defaultState (today : Int) : FMState :=
  { formulas := defaultFormulas today,
    last_addition_date := none,
    active_tree_progress := [] }

/-- Source `get_formula_by_id`: first formula whose `id` matches. -/
def get_formula_by_id (fs : List Formula) (formula_id : Int) : Option Formula :=
  fs.find? (fun f => f.id == formula_id)

/-- Source `get_children_formulas`: all formulas whose `parent` equals `parent_id`
(in list order). -/
def get_children_formulas (fs : List Formula) (parent_id : Int) : List Formula :=
  fs.filter (fun f => f.parent == some parent_id)

/-- Source `get_root_formulas`: all formulas with `parent is None`. -/
def get_root_formulas (fs : List Formula) : List Formula :=
  fs.filter (fun f => f.parent == none)

/-- One iteration of the frontier-expansion loop of `get_nodes_at_level`:
skip falsy (`None`) entries, concatenate every node's direct children. -/
def frontierStep (fs : List Formula) (cur : List (Option Formula)) : List (Option Formula) :=
  ((cur.filterMap id).flatMap (fun nd => get_children_formulas fs nd.id)).map some

/-- The `for _ in range(level)` loop of `get_nodes_at_level`: at the start of
each iteration an empty frontier short-circuits to `[]`. -/
def levelGo (fs : List Formula) : Nat → List (Option Formula) → List (Option Formula)
  | 0, cur => cur
  | n + 1, cur => if cur.isEmpty then [] else levelGo fs n (frontierStep fs cur)

/-- Source `get_nodes_at_level(root_id, level)`: breadth-first tier computation,
level 0 is the root itself, negative levels yield `[]`, trailing `None`s
(a missing root) are filtered out at the end. -/
def get_nodes_at_level (fs : List Formula) (root_id : Int) (level : Int) : List Formula :=
  if level < 0 then []
  else (levelGo fs level.toNat [get_formula_by_id fs root_id]).filterMap id

/-- Python truthiness of an `Optional[int]`: `None` and `0` are falsy. -/
def pyTruthyOptInt : Option Int → Bool
  | none => false
  | some v => v != 0

/-- Source `max([f["id"] for f in self._formulas], default=0) + 1`. -/
def newFormulaId (fs : List Formula) : Int :=
  ((fs.map (fun f => f.id)).max?.getD 0) + 1

/-- The `for formula in self._formulas: if formula["id"] == parent_id:
formula["children"].append(new_id); break` loop of `add_formula`. -/
def appendChildToParent (fs : List Formula) (parent_id new_id : Int) : List Formula :=
  match fs with
  | [] => []
  | f :: rest =>
    if f.id == parent_id then { f with children := f.children ++ [new_id] } :: rest
    else f :: appendChildToParent rest parent_id new_id

/-- Python `str.strip()`: drop whitespace from both ends (an executable
char-list version of trimming, used where the source calls `.strip()`). -/
def pyStrip (s : String) : String :=
  ⟨((s.data.dropWhile Char.isWhitespace).reverse.dropWhile Char.isWhitespace).reverse⟩

/-- The duplicate-daily-addition failure message of `add_formula`. -/
def msgAlreadyAddedToday : String := "今天已经添加过一个定式了，请明天再试。"

/-- The empty-name failure message of `add_formula`. -/
def msgEmptyName : String := "定式名称不能为空。"

/-- The unknown-parent failure message of `add_formula`. -/
def msgParentMissing : String := "父定式不存在。"

/-- Source `add_formula(name, parent_id)`.  Returns `((ok, message), state, saves)`
where `saves` counts `_save_data` invocations. -/
def add_formula (s : FMState) (today : Int) (name : String) (parent_id : Option Int) :
    (Bool × String) × FMState × Nat :=
  if s.last_addition_date == some today then
    ((false, msgAlreadyAddedToday), s, 0)
  else if pyStrip name == "" then
    ((false, msgEmptyName), s, 0)
  else if pyTruthyOptInt parent_id && !(s.formulas.any (fun f => parent_id == some f.id)) then
    ((false, msgParentMissing), s, 0)
  else
    let new_id := newFormulaId s.formulas
    let new_formula : Formula :=
      { id := new_id, name := pyStrip name, parent := parent_id, children := [],
        status := "未执行", last_active_time := none }
    let fs1 :=
      if pyTruthyOptInt parent_id then
        appendChildToParent s.formulas (parent_id.getD 0) new_id
      else s.formulas
    ((true, "定式 '" ++ pyStrip name ++ "' 已成功添加。"),
      { s with formulas := fs1 ++ [new_formula], last_addition_date := some today }, 1)

/-- The recursive `get_descendants` helper of `remove_formula`, with an
explicit recursion-depth bound (the Python function recurses without one and
diverges on cyclic `parent` data). -/
def descend (fs : List Formula) : Nat → Int → List Int
  | 0, _ => []
  | fuel + 1, node_id =>
    node_id ::
      (fs.filter (fun f => f.parent == some node_id)).flatMap
        (fun f => descend fs fuel f.id)

/-- Source `get_descendants(formula_id)`: the node and its recursively collected
subtree, with depth bound `|formulas| + 1` (enough on any acyclic forest). -/
def get_descendants (fs : List Formula) (formula_id : Int) : List Int :=
  descend fs (fs.length + 1) formula_id

/-- Source `remove_formula(formula_id, confirm)`. -/
def remove_formula (s : FMState) (formula_id : Int) (confirm : Bool) :
    (Bool × List String) × FMState × Nat :=
  let to_delete := get_descendants s.formulas formula_id
  let deleted_names :=
    (s.formulas.filter (fun f => decide (f.id ∈ to_delete))).map (fun f => f.name)
  if deleted_names.isEmpty then ((false, []), s, 0)
  else if confirm == false then ((true, deleted_names), s, 0)
  else
    let fs1 := s.formulas.filter (fun f => decide (f.id ∉ to_delete))
    let fs2 := fs1.map (fun f =>
      { f with children := f.children.filter (fun c => decide (c ∉ to_delete)) })
    ((true, deleted_names), { s with formulas := fs2 }, 1)

/-- Source `execute_next_level(root_id)`: advance the stored tier of a tracked root,
wrapping back to 0 (and returning `True`) once the next tier is empty. -/
def execute_next_level (s : FMState) (root_id : Int) : Bool × FMState × Nat :=
  match dictLookup s.active_tree_progress root_id with
  | none => (false, s, 0)
  | some current_level =>
    let next_level_nodes := get_nodes_at_level s.formulas root_id (current_level + 1)
    if next_level_nodes.isEmpty then
      (true, { s with active_tree_progress := dictSet s.active_tree_progress root_id 0 }, 1)
    else
      (false,
        { s with active_tree_progress :=
            dictSet s.active_tree_progress root_id (current_level + 1) }, 1)

/-- Replace the first formula whose id matches, leaving the rest alone
(the in-place dict mutation after `get_formula_by_id` in the source). -/
def updateFormulaById (fs : List Formula) (formula_id : Int) (g : Formula → Formula) :
    List Formula :=
  match fs with
  | [] => []
  | f :: rest =>
    if f.id == formula_id then g f :: rest
    else f :: updateFormulaById rest formula_id g

/-- Source `change_formula_status(formula_id)`: toggle between `"活跃"` and
`"未执行"`, maintain `last_active_time` and the progress map for roots. -/
def change_formula_status (s : FMState) (today : Int) (formula_id : Int) :
    Bool × FMState × Nat :=
  match get_formula_by_id s.formulas formula_id with
  | none => (false, s, 0)
  | some formula =>
    let is_root := formula.parent == none
    if formula.status == "活跃" then
      let fs1 := updateFormulaById s.formulas formula_id
        (fun f => { f with status := "未执行" })
      let prog :=
        if is_root && dictContains s.active_tree_progress formula_id then
          dictDel s.active_tree_progress formula_id
        else s.active_tree_progress
      (true, { s with formulas := fs1, active_tree_progress := prog }, 1)
    else
      let fs1 := updateFormulaById s.formulas formula_id
        (fun f => { f with status := "活跃", last_active_time := some today })
      let prog :=
        if is_root then dictSet s.active_tree_progress formula_id 0
        else s.active_tree_progress
      (true, { s with formulas := fs1, active_tree_progress := prog }, 1)

/-- Source `update_formula_name(formula_id, new_name)`. -/
def update_formula_name (s : FMState) (formula_id : Int) (new_name : String) :
    Bool × FMState × Nat :=
  if pyStrip new_name == "" then (false, s, 0)
  else
    match get_formula_by_id s.formulas formula_id with
    | none => (false, s, 0)
    | some _ =>
      let fs1 := updateFormulaById s.formulas formula_id
        (fun f => { f with name := pyStrip new_name })
      (true, { s with formulas := fs1 }, 1)

/-- Source `get_formula_count()`. -/
def get_formula_count (s : FMState) : Nat := s.formulas.length

/-- Source `clear_all_formulas()`. -/
def clear_all_formulas (s : FMState) : Bool × FMState × Nat :=
  (true, { s with formulas := [] }, 1)

/-- Source `check_inactive_formulas()`: names of active formulas whose
`last_active_time` is strictly before `today - 7`.  A `None` date is falsy in
`if formula['status'] == '活跃' and formula['last_active_time']:` and is
skipped. -/
def checkStep (today : Int) (acc : List String) (formula : Formula) : List String :=
  match formula.status == "活跃", formula.last_active_time with
  | true, some last_active =>
    if last_active < today - 7 then acc ++ [formula.name] else acc
  | _, _ => acc

def check_inactive_formulas (fs : List Formula) (today : Int) : List String :=
  fs.foldl (checkStep today) []

/-- A parsed JSON value, the possible results of `json.loads` in
`import_formulas` (numbers are modelled as integers; their exact values are
irrelevant to the engine, which never inspects imported elements). -/
inductive JVal where
  | null : JVal
  | bool (b : Bool) : JVal
  | num (n : Int) : JVal
  | str (s : String) : JVal
  | arr (elems : List JVal) : JVal
  | obj (fields : List (String × JVal)) : JVal

/-- The engine state at the raw JSON level: `import_formulas` stores whatever
elements the parsed array holds, with no per-node validation, so for this
operation `self._formulas` is a list of arbitrary JSON values. -/
structure RawState where
  formulas : List JVal
  last_addition_date : Option Int
  active_tree_progress : List (Int × Int)

/-- Source `import_formulas(json_data)`: the argument is the outcome of
`json.loads(json_data)` (`Except.error` for a `JSONDecodeError`).  A parsed
list replaces `self._formulas` verbatim; anything else returns `False`
without mutating. -/
def import_formulas (s : RawState) (parsed : Except Unit JVal) : Bool × RawState × Nat :=
  match parsed with
  | .error _ => (false, s, 0)
  | .ok v =>
    match v with
    | .arr elems => (true, { s with formulas := elems }, 1)
    | _ => (false, s, 0)

/-! ## Specification-side definitions

These follow the wording of the spec, to be compared with the behaviour of
the source-derived definitions above. -/

/-- The children/parent consistency invariant of the spec: for every node
`n`, `n.children` equals exactly the set `{m.id : m.parent == n.id}`
(stated as the two inclusions). -/
def ChildrenInv (fs : List Formula) : Prop :=
  (∀ f ∈ fs, ∀ c ∈ f.children, ∃ m ∈ fs, m.parent = some f.id ∧ m.id = c) ∧
  (∀ m ∈ fs, ∀ f ∈ fs, m.parent = some f.id → m.id ∈ f.children)

/-- Node ids are pairwise distinct. -/
def NodupIds (fs : List Formula) : Prop :=
  (fs.map (fun f => f.id)).Nodup

/-- Every non-`None` parent reference points at an existing node. -/
def ParentsExist (fs : List Formula) : Prop :=
  ∀ f ∈ fs, ∀ p : Int, f.parent = some p → ∃ g ∈ fs, g.id = p

/-- The parent relation is acyclic, witnessed by a rank function that
strictly increases from parent to child. -/
def RankedBy (fs : List Formula) (rank : Int → Nat) : Prop :=
  ∀ f ∈ fs, ∀ p : Int, f.parent = some p → rank p < rank f.id

/-- A well-formed forest: consistent children index, unique ids, no dangling
parent references, acyclic parent relation. -/
def WF (fs : List Formula) : Prop :=
  ChildrenInv fs ∧ NodupIds fs ∧ ParentsExist fs ∧ ∃ rank, RankedBy fs rank

/-- One edge of the descendant relation: `b` is the id of a node of `fs`
whose parent field is `a`. -/
def parentStep (fs : List Formula) (a b : Int) : Prop :=
  ∃ f ∈ fs, f.parent = some a ∧ f.id = b

/-- Source `b` is `a` itself or a transitive descendant of `a` (the spec notion of
"the node and all its transitive descendants"). -/
def Reaches (fs : List Formula) (a b : Int) : Prop :=
  Relation.ReflTransGen (parentStep fs) a b

/-- A structural operation, for stating invariant preservation over
arbitrary sequences of adds and removes. -/
inductive FMOp where
  | add (today : Int) (name : String) (parent_id : Option Int) : FMOp
  | remove (formula_id : Int) (confirm : Bool) : FMOp
deriving Repr, DecidableEq

/-- The state after one operation. -/
def applyOp (s : FMState) : FMOp → FMState
  | .add today name parent_id => (add_formula s today name parent_id).2.1
  | .remove formula_id confirm => (remove_formula s formula_id confirm).2.1

/-- The state after a sequence of operations. -/
def applySeq : FMState → List FMOp → FMState
  | s, [] => s
  | s, op :: rest => applySeq (applyOp s op) rest

/-- An `add` argument is benign when its `parent_id` is absent or the
(nonzero) id of an existing node; removes are unrestricted. -/
def GoodOp (s : FMState) : FMOp → Prop
  | .add _ _ parent_id =>
      parent_id = none ∨
        ∃ q : Int, parent_id = some q ∧ q ≠ 0 ∧ ∃ f ∈ s.formulas, f.id = q
  | .remove _ _ => True

/-- Every operation of the sequence is benign at its point of application. -/
def GoodSeq : FMState → List FMOp → Prop
  | _, [] => True
  | s, op :: rest => GoodOp s op ∧ GoodSeq (applyOp s op) rest

/-- Results and final state of `n` successive `execute_next_level(root_id)`
calls. -/
def iterAdvance (s : FMState) (root_id : Int) : Nat → List Bool × FMState
  | 0 => ([], s)
  | n + 1 =>
    let r := execute_next_level s root_id
    let rest := iterAdvance r.2.1 root_id n
    (r.1 :: rest.1, rest.2)

/-- Results and final state of a batch of successive `add_formula` calls on
one calendar day. -/
def addSeq (today : Int) : FMState → List (String × Option Int) → List (Bool × String) × FMState
  | s, [] => ([], s)
  | s, (name, parent_id) :: rest =>
    let r := add_formula s today name parent_id
    let rec1 := addSeq today r.2.1 rest
    (r.1 :: rec1.1, rec1.2)

/-- The default forest with root 1 tracked at level 0 (the spec §8 demo
scenario). -/
def demoAdvState : FMState :=
  { defaultState 0 with active_tree_progress := [(1, 0)] }

/-- The `deleted_names` list of `remove_formula`. -/
def removedNames (fs : List Formula) (i : Int) : List String :=
  (fs.filter (fun f => decide (f.id ∈ get_descendants fs i))).map (fun f => f.name)

/-- The node list produced by a confirmed `remove_formula`: survivors with
the deleted ids stripped from their `children`. -/
def cleanedFormulas (fs : List Formula) (i : Int) : List Formula :=
  (fs.filter (fun f => decide (f.id ∉ get_descendants fs i))).map
    (fun f =>
      { f with children :=
          f.children.filter (fun c => decide (c ∉ get_descendants fs i)) })

/-- A single node with id 0, for exercising the falsy-parent-id path. -/
def c2CexFormula : Formula :=
  { id := 0, name := "R", parent := none, children := [],
    status := "未执行", last_active_time := none }

/-- A one-node state satisfying the children/parent invariant. -/
def c2CexState : FMState :=
  { formulas := [c2CexFormula],
    last_addition_date := none,
    active_tree_progress := [] }

/-! ## Basic lemmas about the helper structures -/

theorem le_max_getD_of_mem (l : List Int) (x : Int) (hx : x ∈ l) :
    x ≤ l.max?.getD 0 := by
  cases hz : l.max? with
  | none =>
    rw [List.max?_eq_none_iff] at hz
    subst hz; simp at hx
  | some m =>
    have h := (List.max?_le_iff (fun a b c => max_le_iff) hz).mp (le_refl m)
    simpa using h x hx

theorem find?_key_append_of_not_contains (d : List (Int × Int)) (k v : Int)
    (h : dictContains d k = false) :
    (d ++ [(k, v)]).find? (fun p => p.1 == k) = some (k, v) := by
  induction d with
  | nil => simp
  | cons a rest ih =>
    simp only [dictContains, List.any_cons, Bool.or_eq_false_iff] at h
    simp only [List.cons_append, List.find?_cons, h.1]
    exact ih h.2

theorem find?_key_map_overwrite (d : List (Int × Int)) (k v : Int)
    (h : dictContains d k = true) :
    (d.map (fun p => if p.1 == k then (k, v) else p)).find? (fun p => p.1 == k) =
      some (k, v) := by
  induction d with
  | nil => simp [dictContains] at h
  | cons a rest ih =>
    by_cases hk : a.1 = k
    · rw [List.map_cons]
      have h1 : (if a.1 == k then (k, v) else a) = (k, v) := by simp [hk]
      rw [h1, List.find?_cons_of_pos _ (by simp)]
    · rw [List.map_cons]
      have h1 : (if a.1 == k then (k, v) else a) = a := by simp [hk]
      rw [h1, List.find?_cons_of_neg _ (by simp [hk])]
      have h2 : dictContains rest k = true := by
        have := h
        simp only [dictContains, List.any_cons, Bool.or_eq_true] at this
        rcases this with h3 | h3
        · exact absurd (by simpa using h3) hk
        · simpa [dictContains] using h3
      exact ih h2

theorem dictLookup_set_self (d : List (Int × Int)) (k v : Int) :
    dictLookup (dictSet d k v) k = some v := by
  unfold dictSet
  by_cases h : dictContains d k = true
  · rw [if_pos h]
    unfold dictLookup
    rw [find?_key_map_overwrite d k v h]
    rfl
  · have h0 : dictContains d k = false := by revert h; cases dictContains d k <;> simp
    rw [if_neg (by simp [h0])]
    unfold dictLookup
    rw [find?_key_append_of_not_contains d k v h0]
    rfl

theorem dictLookup_del_self (d : List (Int × Int)) (k : Int) :
    dictLookup (dictDel d k) k = none := by
  induction d with
  | nil => rfl
  | cons a rest ih =>
    by_cases hk : a.1 = k
    · simpa [dictDel, List.filter_cons, hk] using ih
    · simpa [dictDel, dictLookup, List.filter_cons, bne_iff_ne, hk] using ih

theorem dictLookup_isSome_iff_contains (d : List (Int × Int)) (k : Int) :
    (dictLookup d k).isSome = dictContains d k := by
  induction d with
  | nil => rfl
  | cons a rest ih =>
    simp only [dictLookup, dictContains, List.find?_cons, List.any_cons]
    by_cases hk : a.1 = k
    · have hak : (a.1 == k) = true := by simp [hk]
      simp [hak]
    · have hak : (a.1 == k) = false := by simp [hk]
      simp only [hak, Bool.false_or]
      simpa [dictLookup, dictContains] using ih

/-! ## Lemmas about `get_nodes_at_level` -/

theorem levelGo_nil (fs : List Formula) (n : Nat) : levelGo fs n [] = [] := by
  cases n <;> simp [levelGo]

theorem levelGo_add (fs : List Formula) (m n : Nat) (cur : List (Option Formula)) :
    levelGo fs (m + n) cur = levelGo fs n (levelGo fs m cur) := by
  induction m generalizing cur with
  | zero => simp [levelGo]
  | succ m ih =>
    have hsub : m + 1 + n = (m + n) + 1 := by omega
    rw [hsub]
    by_cases h : cur.isEmpty
    · simp [levelGo, h, levelGo_nil]
    · simp only [levelGo, h, Bool.false_eq_true, if_false]
      exact ih (frontierStep fs cur)

theorem levelGo_isSome (fs : List Formula) (n : Nat) (cur : List (Option Formula))
    (h : ∀ x ∈ cur, x.isSome) : ∀ x ∈ levelGo fs n cur, x.isSome := by
  induction n generalizing cur with
  | zero => simpa [levelGo] using h
  | succ n ih =>
    by_cases he : cur.isEmpty
    · simp [levelGo, he]
    · simp only [levelGo, he, Bool.false_eq_true, if_false]
      refine ih _ ?_
      intro x hx
      simp only [frontierStep, List.mem_map] at hx
      obtain ⟨y, _, rfl⟩ := hx
      rfl

theorem eq_nil_of_filterMap_id_nil (l : List (Option Formula))
    (hs : ∀ x ∈ l, x.isSome) (h : l.filterMap id = []) : l = [] := by
  cases l with
  | nil => rfl
  | cons a rest =>
    have ha := hs a (List.mem_cons_self a rest)
    obtain ⟨v, rfl⟩ := Option.isSome_iff_exists.mp ha
    simp at h

theorem get_nodes_at_level_natCast (fs : List Formula) (root_id : Int) (r : Formula)
    (hroot : get_formula_by_id fs root_id = some r) (k : Nat) :
    get_nodes_at_level fs root_id (k : Int) = (levelGo fs k [some r]).filterMap id := by
  have h1 : ¬((k : Int) < 0) := by omega
  rw [get_nodes_at_level, if_neg h1, hroot]
  norm_num

/-- Claim C6: with an existing root, level 0 is exactly the root node,
negative levels are empty, emptiness persists beyond the first empty tier,
and each tier is the concatenation of the direct children of the previous
tier's nodes. -/
theorem claim_C6_nodes_at_level (fs : List Formula) (root_id : Int) (r : Formula)
    (hroot : get_formula_by_id fs root_id = some r) :
    get_nodes_at_level fs root_id 0 = [r] ∧
    (∀ k : Int, k < 0 → get_nodes_at_level fs root_id k = []) ∧
    (∀ d k : Int, 0 ≤ d → d ≤ k → get_nodes_at_level fs root_id d = [] →
      get_nodes_at_level fs root_id k = []) ∧
    (∀ k : Nat, get_nodes_at_level fs root_id ((k : Int) + 1) =
      (get_nodes_at_level fs root_id (k : Int)).flatMap
        (fun nd => get_children_formulas fs nd.id)) := by
  refine ⟨?_, ?_, ?_, ?_⟩
  · have h := get_nodes_at_level_natCast fs root_id r hroot 0
    simpa [levelGo] using h
  · intro k hk
    rw [get_nodes_at_level, if_pos hk]
  · intro d k hd hdk hnil
    obtain ⟨dn, rfl⟩ : ∃ n : Nat, d = (n : Int) := ⟨d.toNat, by omega⟩
    obtain ⟨kn, rfl⟩ : ∃ n : Nat, k = (n : Int) := ⟨k.toNat, by omega⟩
    rw [get_nodes_at_level_natCast fs root_id r hroot] at hnil ⊢
    have hsome : ∀ x ∈ levelGo fs dn [some r], x.isSome :=
      levelGo_isSome _ _ _ (by simp)
    have hempty : levelGo fs dn [some r] = [] :=
      eq_nil_of_filterMap_id_nil _ hsome hnil
    have hsplit : kn = dn + (kn - dn) := by omega
    rw [hsplit, levelGo_add, hempty, levelGo_nil]
    rfl
  · intro k
    rw [show ((k : Int) + 1) = ((k + 1 : Nat) : Int) by push_cast; ring]
    rw [get_nodes_at_level_natCast fs root_id r hroot,
      get_nodes_at_level_natCast fs root_id r hroot, levelGo_add fs k 1]
    by_cases he : (levelGo fs k [some r]).isEmpty
    · have hnil : levelGo fs k [some r] = [] := by simpa [List.isEmpty_iff] using he
      rw [hnil]
      simp [levelGo]
    · simp only [levelGo, he, Bool.false_eq_true, if_false]
      simp [frontierStep]

theorem claim_C6_witness :
    ∃ r : Formula, get_formula_by_id (defaultFormulas 0) 1 = some r ∧
      get_nodes_at_level (defaultFormulas 0) 1 0 = [r] ∧
      get_nodes_at_level (defaultFormulas 0) 1 5 = [] := by
  have h := claim_C6_nodes_at_level (defaultFormulas 0) 1
    { id := 1, name := "A定式", parent := none, children := [2, 3],
      status := "活跃", last_active_time := some 0 } (by decide)
  exact ⟨_, by decide, h.1, h.2.2.1 3 5 (by decide) (by decide) (by decide)⟩

/-! ## Lemmas about `execute_next_level` iteration -/

theorem iterAdvance_add (s : FMState) (root : Int) (m n : Nat) :
    iterAdvance s root (m + n) =
      ((iterAdvance s root m).1 ++ (iterAdvance (iterAdvance s root m).2 root n).1,
        (iterAdvance (iterAdvance s root m).2 root n).2) := by
  induction m generalizing s with
  | zero => simp [iterAdvance]
  | succ m ih =>
    have h1 : m + 1 + n = (m + n) + 1 := by omega
    rw [h1]
    simp only [iterAdvance]
    rw [ih ((execute_next_level s root).2.1)]
    simp

theorem isEmpty_false_of_ne_nil {l : List Formula} (h : l ≠ []) : l.isEmpty = false := by
  cases l with
  | nil => exact absurd rfl h
  | cons a rest => rfl

theorem execute_next_level_step (s : FMState) (root : Int) (j : Int)
    (hl : dictLookup s.active_tree_progress root = some j)
    (hne : get_nodes_at_level s.formulas root (j + 1) ≠ []) :
    execute_next_level s root =
      (false,
        { s with active_tree_progress := dictSet s.active_tree_progress root (j + 1) },
        1) := by
  rw [execute_next_level, hl]
  simp [isEmpty_false_of_ne_nil hne]

theorem execute_next_level_wrap (s : FMState) (root : Int) (j : Int)
    (hl : dictLookup s.active_tree_progress root = some j)
    (hnil : get_nodes_at_level s.formulas root (j + 1) = []) :
    execute_next_level s root =
      (true,
        { s with active_tree_progress := dictSet s.active_tree_progress root 0 },
        1) := by
  rw [execute_next_level, hl]
  simp [hnil]

theorem advance_partial (fs : List Formula) (root : Int) (D : Nat)
    (hne : ∀ l : Nat, 1 ≤ l → l ≤ D → get_nodes_at_level fs root (l : Int) ≠ []) :
    ∀ (k j : Nat) (s : FMState), s.formulas = fs →
      dictLookup s.active_tree_progress root = some (j : Int) → j + k ≤ D →
      (iterAdvance s root k).1 = List.replicate k false ∧
      (iterAdvance s root k).2.formulas = fs ∧
      dictLookup (iterAdvance s root k).2.active_tree_progress root =
        some ((j + k : Nat) : Int) := by
  intro k
  induction k with
  | zero =>
    intro j s hfs hl hle
    exact ⟨rfl, hfs, by simpa using hl⟩
  | succ k ih =>
    intro j s hfs hl hle
    have hcast : ((j : Int) + 1) = ((j + 1 : Nat) : Int) := by push_cast; ring
    have hne1 : get_nodes_at_level s.formulas root ((j : Int) + 1) ≠ [] := by
      rw [hfs, hcast]
      exact hne (j + 1) (by omega) (by omega)
    have hr := execute_next_level_step s root (j : Int) hl hne1
    have hl1 : dictLookup
        (dictSet s.active_tree_progress root ((j : Int) + 1)) root =
        some ((j + 1 : Nat) : Int) := by
      rw [dictLookup_set_self, hcast]
    have ihres := ih (j + 1)
      { s with active_tree_progress := dictSet s.active_tree_progress root ((j : Int) + 1) }
      hfs hl1 (by omega)
    simp only [iterAdvance, hr]
    refine ⟨?_, ihres.2.1, ?_⟩
    · rw [ihres.1, List.replicate_succ]
    · rw [ihres.2.2]
      congr 1
      omega

/-- Claim C1: for a tracked root at stored level 0 whose subtree has tiers
1..D non-empty and tier D+1 empty, the first D `execute_next_level` calls
return `false` and step the stored level through 1..D in order, the (D+1)-th
call returns `true` and resets the stored level to 0 (leaving the node list
untouched); a call with an untracked root id returns `false` and changes
nothing. -/
theorem claim_C1_advance_level_cycle :
    (∀ (s : FMState) (root : Int) (D : Nat),
      dictLookup s.active_tree_progress root = some 0 →
      (∀ l : Nat, 1 ≤ l → l ≤ D → get_nodes_at_level s.formulas root (l : Int) ≠ []) →
      get_nodes_at_level s.formulas root ((D : Int) + 1) = [] →
      (∀ k : Nat, k ≤ D →
        (iterAdvance s root k).1 = List.replicate k false ∧
        dictLookup (iterAdvance s root k).2.active_tree_progress root = some (k : Int)) ∧
      ((iterAdvance s root (D + 1)).1 = List.replicate D false ++ [true] ∧
        (iterAdvance s root (D + 1)).2.formulas = s.formulas ∧
        dictLookup (iterAdvance s root (D + 1)).2.active_tree_progress root = some 0)) ∧
    (∀ (s : FMState) (root : Int),
      dictLookup s.active_tree_progress root = none →
      execute_next_level s root = (false, s, 0)) := by
  constructor
  · intro s root D h0 hne hD
    have h0n : dictLookup s.active_tree_progress root = some ((0 : Nat) : Int) := by
      simpa using h0
    constructor
    · intro k hk
      have h := advance_partial s.formulas root D hne k 0 s rfl h0n (by omega)
      exact ⟨h.1, by simpa using h.2.2⟩
    · have hpart := advance_partial s.formulas root D hne D 0 s rfl h0n (by omega)
      have hcomp := iterAdvance_add s root D 1
      set t := (iterAdvance s root D).2 with ht
      have htl : dictLookup t.active_tree_progress root = some ((D : Nat) : Int) := by
        simpa using hpart.2.2
      have htf : t.formulas = s.formulas := hpart.2.1
      have hnilD : get_nodes_at_level t.formulas root ((D : Int) + 1) = [] := by
        rw [htf]; exact hD
      have hwrap := execute_next_level_wrap t root (D : Int) htl hnilD
      have hone : iterAdvance t root 1 =
          ([true], { t with active_tree_progress := dictSet t.active_tree_progress root 0 }) := by
        simp [iterAdvance, hwrap]
      rw [hcomp, hone, hpart.1]
      exact ⟨rfl, htf, dictLookup_set_self _ _ _⟩
  · intro s root h
    rw [execute_next_level, h]

theorem claim_C1_witness :
    dictLookup demoAdvState.active_tree_progress 1 = some 0 ∧
    (iterAdvance demoAdvState 1 3).1 = [false, false, true] ∧
    dictLookup (iterAdvance demoAdvState 1 3).2.active_tree_progress 1 = some 0 ∧
    execute_next_level (defaultState 0) 7 = (false, defaultState 0, 0) := by
  have h := claim_C1_advance_level_cycle.1 demoAdvState 1 2 (by decide)
    (by intro l h1 h2; interval_cases l <;> decide) (by decide)
  have h2 := claim_C1_advance_level_cycle.2 (defaultState 0) 7 (by decide)
  refine ⟨by decide, ?_, h.2.2.2, h2⟩
  exact h.2.1.trans (by decide)

/-! ## Lemmas about `add_formula` -/

theorem add_success_state (s : FMState) (t : Int) (n : String) (p : Option Int)
    (h : (add_formula s t n p).1.1 = true) :
    (add_formula s t n p).2.1.last_addition_date = some t := by
  unfold add_formula at h ⊢
  by_cases h1 : (s.last_addition_date == some t) = true
  · rw [if_pos h1] at h; simp at h
  · rw [if_neg h1] at h ⊢
    by_cases h2 : (pyStrip n == "") = true
    · rw [if_pos h2] at h; simp at h
    · rw [if_neg h2] at h ⊢
      by_cases h3 :
          (pyTruthyOptInt p && !(s.formulas.any (fun f => p == some f.id))) = true
      · rw [if_pos h3] at h; simp at h
      · rw [if_neg h3] at h ⊢

theorem add_gate_blocks (s : FMState) (t : Int) (n : String) (p : Option Int)
    (h : s.last_addition_date = some t) :
    add_formula s t n p = ((false, msgAlreadyAddedToday), s, 0) := by
  unfold add_formula
  rw [if_pos (by simp [h])]

/-- Claim C7: once an `add` succeeds on a day, every further `add` that day
fails with the duplicate-addition message and leaves the state untouched,
whatever its arguments; on any strictly later day the gate no longer fires. -/
theorem claim_C7_daily_gate (s : FMState) (today : Int) (name : String)
    (parent_id : Option Int)
    (hs : (add_formula s today name parent_id).1.1 = true) :
    (∀ reqs : List (String × Option Int),
      addSeq today (add_formula s today name parent_id).2.1 reqs =
        (reqs.map (fun _ => (false, msgAlreadyAddedToday)),
          (add_formula s today name parent_id).2.1)) ∧
    (∀ (d : Int) (n2 : String) (p2 : Option Int), today < d →
      (add_formula (add_formula s today name parent_id).2.1 d n2 p2).1 ≠
        (false, msgAlreadyAddedToday)) := by
  set s1 := (add_formula s today name parent_id).2.1 with hs1
  have hlast : s1.last_addition_date = some today := add_success_state s today name parent_id hs
  constructor
  · intro reqs
    induction reqs with
    | nil => rfl
    | cons r rest ih =>
      obtain ⟨n2, p2⟩ := r
      simp only [addSeq, add_gate_blocks s1 today n2 p2 hlast, List.map_cons]
      rw [ih]
  · intro d n2 p2 hd
    unfold add_formula
    have hneq : (s1.last_addition_date == some d) = false := by
      rw [hlast]
      simp only [beq_eq_false_iff_ne, ne_eq, Option.some.injEq]
      omega
    rw [if_neg (by simp [hneq])]
    split
    · exact (by decide :
        ((false, msgEmptyName) : Bool × String) ≠ (false, msgAlreadyAddedToday))
    · split
      · exact (by decide :
          ((false, msgParentMissing) : Bool × String) ≠ (false, msgAlreadyAddedToday))
      · intro hcon
        simp at hcon

theorem claim_C7_witness :
    (add_formula (defaultState 0) 0 "x" none).1.1 = true ∧
    addSeq 0 (add_formula (defaultState 0) 0 "x" none).2.1 [("y", none), ("z", some 1)] =
      ([(false, msgAlreadyAddedToday), (false, msgAlreadyAddedToday)],
        (add_formula (defaultState 0) 0 "x" none).2.1) ∧
    (add_formula (add_formula (defaultState 0) 0 "x" none).2.1 1 "y" none).1 ≠
      (false, msgAlreadyAddedToday) := by
  have h := claim_C7_daily_gate (defaultState 0) 0 "x" none (by decide)
  refine ⟨by decide, ?_, h.2 1 "y" none (by decide)⟩
  have h1 := h.1 [("y", none), ("z", some 1)]
  simpa using h1

/-! ## Claim C9: the staleness check -/

theorem check_inactive_foldl (today : Int) (fs : List Formula) :
    ∀ acc : List String,
      fs.foldl (checkStep today) acc =
        acc ++ (fs.filter (fun f =>
          f.status == "活跃" &&
            match f.last_active_time with
            | some d => decide (d < today - 7)
            | none => false)).map (fun f => f.name) := by
  induction fs with
  | nil => simp
  | cons f rest ih =>
    intro acc
    rw [List.foldl_cons, ih]
    cases hst : (f.status == "活跃") with
    | false => simp [checkStep, hst]
    | true =>
      cases hlast : f.last_active_time with
      | none => simp [checkStep, hst, hlast]
      | some d =>
        by_cases hd : d < today - 7
        · simp [checkStep, hst, hlast, hd, List.filter_cons]
        · simp [checkStep, hst, hlast, hd, List.filter_cons]

/-- Claim C9: the staleness check reports a name exactly for the nodes that
are ACTIVE, have a non-`None` `last_active_time`, and were last active
strictly more than 7 days before today. -/
theorem claim_C9_staleness (fs : List Formula) (today : Int) :
    (∀ f ∈ fs, f.status = "活跃" → ∀ d : Int, f.last_active_time = some d →
      today - d > 7 → f.name ∈ check_inactive_formulas fs today) ∧
    (∀ nm ∈ check_inactive_formulas fs today, ∃ f ∈ fs,
      f.status = "活跃" ∧ ∃ d : Int, f.last_active_time = some d ∧
        today - d > 7 ∧ f.name = nm) := by
  have heq : check_inactive_formulas fs today =
      (fs.filter (fun f =>
        f.status == "活跃" &&
          match f.last_active_time with
          | some d => decide (d < today - 7)
          | none => false)).map (fun f => f.name) := by
    have h := check_inactive_foldl today fs []
    simpa [check_inactive_formulas] using h
  constructor
  · intro f hf hst d hd hstale
    rw [heq]
    refine List.mem_map.mpr ⟨f, List.mem_filter.mpr ⟨hf, ?_⟩, rfl⟩
    rw [hd, hst]
    simp
    omega
  · intro nm hnm
    rw [heq] at hnm
    obtain ⟨f, hf, rfl⟩ := List.mem_map.mp hnm
    have hmem := List.mem_filter.mp hf
    refine ⟨f, hmem.1, ?_⟩
    have hcond := hmem.2
    cases hlast : f.last_active_time with
    | none => rw [hlast] at hcond; simp at hcond
    | some d =>
      rw [hlast] at hcond
      simp only [Bool.and_eq_true, beq_iff_eq, decide_eq_true_eq] at hcond
      exact ⟨hcond.1, d, rfl, by omega, rfl⟩

theorem claim_C9_witness :
    "A定式" ∈ check_inactive_formulas (defaultFormulas 0) 8 ∧
    ∃ f ∈ defaultFormulas 0, f.status = "活跃" ∧ ∃ d : Int,
      f.last_active_time = some d ∧ 8 - d > 7 ∧ f.name = "A定式" := by
  have h := claim_C9_staleness (defaultFormulas 0) 8
  constructor
  · exact h.1
      { id := 1, name := "A定式", parent := none, children := [2, 3],
        status := "活跃", last_active_time := some 0 }
      (by decide) rfl 0 rfl (by norm_num)
  · exact h.2 "A定式" (by decide)

/-! ## Claim C8: status toggling -/

theorem get_formula_by_id_update (fs : List Formula) (i : Int) (g : Formula → Formula)
    (hid : ∀ f, (g f).id = f.id) :
    get_formula_by_id (updateFormulaById fs i g) i =
      (get_formula_by_id fs i).map g := by
  induction fs with
  | nil => rfl
  | cons f rest ih =>
    by_cases h : f.id = i
    · unfold updateFormulaById get_formula_by_id
      rw [if_pos (by simp [h])]
      rw [List.find?_cons_of_pos _ (by simp [hid, h])]
      rw [List.find?_cons_of_pos _ (by simp [h])]
      rfl
    · unfold updateFormulaById get_formula_by_id
      rw [if_neg (by simp [h])]
      rw [List.find?_cons_of_neg _ (by simp [h]), List.find?_cons_of_neg _ (by simp [h])]
      exact ih

theorem dictLookup_none_of_not_contains (d : List (Int × Int)) (k : Int)
    (h : dictContains d k = false) : dictLookup d k = none := by
  have hiff := dictLookup_isSome_iff_contains d k
  rw [h] at hiff
  exact Option.not_isSome_iff_eq_none.mp (by rw [hiff]; exact Bool.false_ne_true)

/-- Claim C8: toggling an ACTIVE node returns `true`, keeps its
`last_active_time` (never resetting it to `None`), and, for a root, removes
it from the progress map; toggling an INACTIVE node returns `true`, stamps
`last_active_time` with today, and, for a root, sets its progress entry to
level 0; toggling an unknown id returns `false` and changes nothing. -/
theorem claim_C8_toggle_status (s : FMState) (today : Int) (i : Int) :
    (∀ f : Formula, get_formula_by_id s.formulas i = some f → f.status = "活跃" →
      (change_formula_status s today i).1 = true ∧
      (∃ f1, get_formula_by_id (change_formula_status s today i).2.1.formulas i = some f1 ∧
        f1.last_active_time = f.last_active_time ∧ f1.status = "未执行") ∧
      (f.parent = none →
        dictLookup (change_formula_status s today i).2.1.active_tree_progress i = none)) ∧
    (∀ f : Formula, get_formula_by_id s.formulas i = some f → f.status = "未执行" →
      (change_formula_status s today i).1 = true ∧
      (∃ f1, get_formula_by_id (change_formula_status s today i).2.1.formulas i = some f1 ∧
        f1.last_active_time = some today ∧ f1.status = "活跃") ∧
      (f.parent = none →
        dictLookup (change_formula_status s today i).2.1.active_tree_progress i = some 0)) ∧
    (get_formula_by_id s.formulas i = none →
      change_formula_status s today i = (false, s, 0)) := by
  refine ⟨?_, ?_, ?_⟩
  · intro f hf hst
    unfold change_formula_status
    rw [hf]
    simp only [hst]
    rw [if_pos (by decide)]
    refine ⟨rfl, ?_, ?_⟩
    · refine ⟨{ f with status := "未执行" }, ?_, rfl, rfl⟩
      have h := get_formula_by_id_update s.formulas i
        (fun g => { g with status := "未执行" }) (fun g => rfl)
      rw [h, hf]
      rfl
    · intro hroot
      have hisroot : (f.parent == none) = true := by simp [hroot]
      simp only [hisroot, Bool.true_and]
      by_cases hc : dictContains s.active_tree_progress i = true
      · rw [if_pos hc]
        exact dictLookup_del_self _ _
      · rw [if_neg hc]
        exact dictLookup_none_of_not_contains _ _ (by
          revert hc; cases dictContains s.active_tree_progress i <;> simp)
  · intro f hf hst
    unfold change_formula_status
    rw [hf]
    simp only [hst]
    rw [if_neg (by decide)]
    refine ⟨rfl, ?_, ?_⟩
    · refine ⟨{ f with status := "活跃", last_active_time := some today }, ?_, rfl, rfl⟩
      have h := get_formula_by_id_update s.formulas i
        (fun g => { g with status := "活跃", last_active_time := some today })
        (fun g => rfl)
      rw [h, hf]
      rfl
    · intro hroot
      have hisroot : (f.parent == none) = true := by simp [hroot]
      simp only [hisroot, if_true]
      exact dictLookup_set_self _ _ _
  · intro hnone
    unfold change_formula_status
    rw [hnone]

theorem claim_C8_witness :
    (change_formula_status demoAdvState 9 1).1 = true ∧
    (∃ f1, get_formula_by_id (change_formula_status demoAdvState 9 1).2.1.formulas 1 =
        some f1 ∧ f1.last_active_time = some 0 ∧ f1.status = "未执行") ∧
    dictLookup (change_formula_status demoAdvState 9 1).2.1.active_tree_progress 1 = none ∧
    (change_formula_status demoAdvState 9 3).1 = true ∧
    (∃ f3, get_formula_by_id (change_formula_status demoAdvState 9 3).2.1.formulas 3 =
        some f3 ∧ f3.last_active_time = some 9 ∧ f3.status = "活跃") ∧
    change_formula_status demoAdvState 9 77 = (false, demoAdvState, 0) := by
  have h1 := (claim_C8_toggle_status demoAdvState 9 1).1
    { id := 1, name := "A定式", parent := none, children := [2, 3],
      status := "活跃", last_active_time := some 0 } (by decide) rfl
  have h3 := (claim_C8_toggle_status demoAdvState 9 3).2.1
    { id := 3, name := "C定式", parent := some 1, children := [],
      status := "未执行", last_active_time := none } (by decide) rfl
  have h77 := (claim_C8_toggle_status demoAdvState 9 77).2.2 (by decide)
  exact ⟨h1.1, h1.2.1, h1.2.2 rfl, h3.1, h3.2.1, h77⟩

/-! ## Claim C5: rejection of unknown parents

The source guard is `if parent_id and not any(...)`: Python truthiness makes
`parent_id = 0` skip the existence check entirely, so the claim holds only
for nonzero parent ids. -/

/-- Counterexample to claim C5 as stated: on a state whose nodes all have
nonzero ids, `add` with the given-but-unknown parent id `0` does not fail —
it succeeds and mutates the state (the node is stored with the dangling
parent reference `0`). -/
theorem claim_C5_counterexample :
    (∀ f ∈ (defaultState 0).formulas, f.id ≠ 0) ∧
    (add_formula (defaultState 0) 1 "x" (some 0)).1.1 = true ∧
    (add_formula (defaultState 0) 1 "x" (some 0)).2.1 ≠ defaultState 0 := by
  refine ⟨by decide, by decide, by decide⟩

/-- Claim C5 (amended): `add` with a given, nonzero `parent_id` that matches
no existing node fails with some message and leaves the state untouched
(`parent_id = 0` is falsy in the source's guard and escapes the check). -/
theorem claim_C5_unknown_parent_rejected (s : FMState) (today : Int) (name : String)
    (p : Int) (hp : p ≠ 0) (hmiss : ∀ f ∈ s.formulas, f.id ≠ p) :
    ∃ msg : String, add_formula s today name (some p) = ((false, msg), s, 0) := by
  have h1 : pyTruthyOptInt (some p) = true := by simp [pyTruthyOptInt, hp]
  have h2 : (s.formulas.any (fun f => some p == some f.id)) = false := by
    rw [List.any_eq_false]
    intro f hf
    simp only [beq_iff_eq, Option.some.injEq]
    exact fun he => hmiss f hf he.symm
  unfold add_formula
  split
  · exact ⟨msgAlreadyAddedToday, rfl⟩
  · split
    · exact ⟨msgEmptyName, rfl⟩
    · rw [if_pos (by rw [h1, h2]; rfl)]
      exact ⟨msgParentMissing, rfl⟩

theorem claim_C5_witness :
    (99 : Int) ≠ 0 ∧ (∀ f ∈ (defaultState 0).formulas, f.id ≠ 99) ∧
    ∃ msg : String, add_formula (defaultState 0) 5 "x" (some 99) =
      ((false, msg), defaultState 0, 0) :=
  ⟨by decide, by decide,
    claim_C5_unknown_parent_rejected (defaultState 0) 5 "x" 99 (by decide) (by decide)⟩

/-! ## Claim C10: import -/

/-- Claim C10: `import_formulas` succeeds on any parsed JSON array,
replacing the node list verbatim (no per-element validation) while leaving
the progress map and last-addition date untouched; on a parse error or a
non-array value it returns `false` and changes nothing. -/
theorem claim_C10_import (s : RawState) (parsed : Except Unit JVal) :
    (∀ elems : List JVal, parsed = .ok (.arr elems) →
      import_formulas s parsed =
        (true,
          { formulas := elems, last_addition_date := s.last_addition_date,
            active_tree_progress := s.active_tree_progress }, 1)) ∧
    ((∀ elems : List JVal, parsed ≠ .ok (.arr elems)) →
      import_formulas s parsed = (false, s, 0)) := by
  constructor
  · rintro elems rfl
    rfl
  · intro h
    cases parsed with
    | error e => rfl
    | ok v =>
      cases v with
      | arr elems => exact absurd rfl (h elems)
      | null => rfl
      | bool b => rfl
      | num n => rfl
      | str s2 => rfl
      | obj l => rfl

theorem claim_C10_witness :
    import_formulas ⟨[], some 3, [(1, 0)]⟩ (.ok (.arr [.num 5, .null])) =
      (true, ⟨[.num 5, .null], some 3, [(1, 0)]⟩, 1) ∧
    import_formulas ⟨[], some 3, [(1, 0)]⟩ (.ok (.str "boom")) =
      (false, ⟨[], some 3, [(1, 0)]⟩, 0) := by
  constructor
  · exact (claim_C10_import ⟨[], some 3, [(1, 0)]⟩ (.ok (.arr [.num 5, .null]))).1
      [.num 5, .null] rfl
  · exact (claim_C10_import ⟨[], some 3, [(1, 0)]⟩ (.ok (.str "boom"))).2
      (by intro elems hcon; exact JVal.noConfusion (Except.ok.inj hcon))

/-! ## Claim C3: the persistence callback

The callback fires exactly once whenever an operation commits (reaches its
mutation path), not only when the state actually changes: renaming a node to
its current name commits, changes nothing, and still saves once. -/

/-- Counterexample to claim C3 as stated: `update_formula_name` on node 1
with its current name leaves the state fully unchanged yet invokes the
persistence callback once (the claim requires zero invocations when no
mutation occurred). -/
theorem claim_C3_counterexample :
    (update_formula_name (defaultState 0) 1 "A定式").2.1 = defaultState 0 ∧
    (update_formula_name (defaultState 0) 1 "A定式").2.2 = 1 := by
  refine ⟨by decide, by decide⟩

/-- Claim C3 (amended): each operation invokes the persistence callback
exactly once when it commits — `add` on success, `remove` only when
confirmed and the id matched, rename and toggle on success, advance-level
when the root is tracked, clear always, import when an array was parsed —
and zero times otherwise; a committing operation may save even when the new
state equals the old one. -/
theorem claim_C3_saves_iff_commit :
    (∀ (s : FMState) (t : Int) (n : String) (p : Option Int),
      (add_formula s t n p).2.2 = if (add_formula s t n p).1.1 then 1 else 0) ∧
    (∀ (s : FMState) (i : Int) (c : Bool),
      (remove_formula s i c).2.2 =
        if c && (remove_formula s i c).1.1 then 1 else 0) ∧
    (∀ (s : FMState) (i : Int) (n : String),
      (update_formula_name s i n).2.2 = if (update_formula_name s i n).1 then 1 else 0) ∧
    (∀ (s : FMState) (t i : Int),
      (change_formula_status s t i).2.2 =
        if (change_formula_status s t i).1 then 1 else 0) ∧
    (∀ (s : FMState) (r : Int),
      (execute_next_level s r).2.2 =
        if (dictLookup s.active_tree_progress r).isSome then 1 else 0) ∧
    (∀ s : FMState, (clear_all_formulas s).2.2 = 1 ∧ (clear_all_formulas s).1 = true) ∧
    (∀ (s : RawState) (parsed : Except Unit JVal),
      (import_formulas s parsed).2.2 = if (import_formulas s parsed).1 then 1 else 0) := by
  refine ⟨?_, ?_, ?_, ?_, ?_, ?_, ?_⟩
  · intro s t n p
    unfold add_formula
    split
    · rfl
    · split
      · rfl
      · split
        · rfl
        · rfl
  · intro s i c
    unfold remove_formula
    cases c with
    | false =>
      simp only [Bool.false_and]
      split
      · rfl
      · split
        · rfl
        · rename_i hcon
          exact absurd rfl hcon
    | true =>
      simp only [Bool.true_and]
      split
      · rfl
      · rfl
  · intro s i n
    unfold update_formula_name
    split
    · rfl
    · cases get_formula_by_id s.formulas i <;> rfl
  · intro s t i
    unfold change_formula_status
    cases get_formula_by_id s.formulas i with
    | none => rfl
    | some f =>
      dsimp only
      by_cases hst : (f.status == "活跃") = true
      · rw [if_pos hst]
        rfl
      · rw [if_neg hst]
        rfl
  · intro s r
    unfold execute_next_level
    cases h : dictLookup s.active_tree_progress r with
    | none => rfl
    | some j =>
      dsimp only
      by_cases he :
          (get_nodes_at_level s.formulas r (j + 1)).isEmpty = true
      · rw [if_pos he]
        rfl
      · rw [if_neg he]
        rfl
  · intro s
    exact ⟨rfl, rfl⟩
  · intro s parsed
    cases parsed with
    | error e => rfl
    | ok v => cases v <;> rfl

/-! ## The descendant closure of `remove_formula` -/

theorem reaches_of_mem_descend (fs : List Formula) :
    ∀ (fuel : Nat) (i x : Int), x ∈ descend fs fuel i → Reaches fs i x := by
  intro fuel
  induction fuel with
  | zero =>
    intro i x hx
    simp [descend] at hx
  | succ fuel ih =>
    intro i x hx
    simp only [descend, List.mem_cons] at hx
    rcases hx with rfl | hx
    · exact Relation.ReflTransGen.refl
    · rw [List.mem_flatMap] at hx
      obtain ⟨f, hf, hx2⟩ := hx
      rw [List.mem_filter] at hf
      have hpar : f.parent = some i := by simpa using hf.2
      exact Relation.ReflTransGen.head ⟨f, hf.1, hpar, rfl⟩ (ih f.id x hx2)

theorem chain_getLast_mem_descend (fs : List Formula) :
    ∀ (l : List Int) (i : Int) (fuel : Nat), List.Chain (parentStep fs) i l →
      l.length < fuel →
      (i :: l).getLast (List.cons_ne_nil _ _) ∈ descend fs fuel i := by
  intro l
  induction l with
  | nil =>
    intro i fuel _ hfuel
    obtain ⟨fuel2, rfl⟩ : ∃ m, fuel = m + 1 := ⟨fuel - 1, by omega⟩
    simp [descend]
  | cons j rest ih =>
    intro i fuel hchain hfuel
    obtain ⟨fuel2, rfl⟩ : ∃ m, fuel = m + 1 := ⟨fuel - 1, by omega⟩
    rw [List.chain_cons] at hchain
    obtain ⟨⟨f, hf, hpar, hfid⟩, hchain2⟩ := hchain
    rw [List.getLast_cons (List.cons_ne_nil _ _)]
    have hmem := ih j fuel2 hchain2 (by
      simp only [List.length_cons] at hfuel
      omega)
    simp only [descend, List.mem_cons]
    right
    rw [List.mem_flatMap]
    refine ⟨f, ?_, ?_⟩
    · rw [List.mem_filter]
      exact ⟨hf, by simp [hpar]⟩
    · rw [hfid]
      exact hmem

theorem chain_mem_ids (fs : List Formula) :
    ∀ (l : List Int) (i : Int), List.Chain (parentStep fs) i l →
      ∀ b ∈ l, b ∈ fs.map (fun f => f.id) := by
  intro l
  induction l with
  | nil =>
    intro i _ b hb
    simp at hb
  | cons j rest ih =>
    intro i hchain b hb
    rw [List.chain_cons] at hchain
    rcases List.mem_cons.mp hb with rfl | hb2
    · obtain ⟨f, hf, _, rfl⟩ := hchain.1
      exact List.mem_map.mpr ⟨f, hf, rfl⟩
    · exact ih j hchain.2 b hb2

theorem chain_length_le (fs : List Formula) (rank : Int → Nat)
    (hrank : RankedBy fs rank) (i : Int) (l : List Int)
    (hchain : List.Chain (parentStep fs) i l) : l.length ≤ fs.length := by
  have hstep : ∀ a b : Int, parentStep fs a b → rank a < rank b := by
    rintro a b ⟨f, hf, hpar, rfl⟩
    exact hrank f hf a hpar
  have hchain2 : List.Chain (fun x y : Int => rank x < rank y) i l :=
    List.Chain.imp hstep hchain
  have hchain3 : List.Chain (· < ·) (rank i) (l.map rank) :=
    (List.chain_map rank).mpr hchain2
  have hpw : List.Pairwise (· < ·) (rank i :: l.map rank) :=
    List.chain_iff_pairwise.mp hchain3
  have hnodup : (l.map rank).Nodup :=
    (List.Pairwise.of_cons hpw).imp (fun h => Nat.ne_of_lt h)
  have hnl : l.Nodup := hnodup.of_map rank
  have hsub : l ⊆ fs.map (fun f => f.id) := fun b hb => chain_mem_ids fs l i hchain b hb
  calc l.length ≤ (fs.map (fun f => f.id)).length :=
        (List.subperm_of_subset hnl hsub).length_le
    _ = fs.length := by simp

/-- On an acyclic (rank-ordered) forest, the source's fuelled descendant
closure computes exactly reflexive-transitive reachability through `parent`
links. -/
theorem mem_descend_iff_reaches (fs : List Formula) (rank : Int → Nat)
    (hrank : RankedBy fs rank) (i x : Int) :
    x ∈ get_descendants fs i ↔ Reaches fs i x := by
  constructor
  · exact reaches_of_mem_descend fs _ i x
  · intro h
    obtain ⟨l, hchain, hlast⟩ := List.exists_chain_of_relationReflTransGen h
    have hlen := chain_length_le fs rank hrank i l hchain
    have hmem := chain_getLast_mem_descend fs l i (fs.length + 1) hchain (by omega)
    rw [hlast] at hmem
    exact hmem

theorem self_mem_get_descendants (fs : List Formula) (i : Int) :
    i ∈ get_descendants fs i := by
  simp [get_descendants, descend]

theorem isEmpty_false_of_ne_nil_str {l : List String} (h : l ≠ []) :
    l.isEmpty = false := by
  cases l with
  | nil => exact absurd rfl h
  | cons a rest => rfl

theorem remove_formula_found_eq (s : FMState) (i : Int)
    (hne : (removedNames s.formulas i).isEmpty = false) :
    remove_formula s i false = ((true, removedNames s.formulas i), s, 0) ∧
    remove_formula s i true =
      ((true, removedNames s.formulas i),
        { s with formulas := cleanedFormulas s.formulas i }, 1) := by
  have hne2 := hne
  unfold removedNames at hne2
  constructor
  · simp only [remove_formula]
    rw [hne2]
    rfl
  · simp only [remove_formula]
    rw [hne2]
    rfl

theorem map_id_filter_children (fs : List Formula) (del : List Int) :
    ((fs.filter (fun f => decide (f.id ∉ del))).map
      (fun f =>
        { f with children := f.children.filter (fun c => decide (c ∉ del)) })).map
        (fun f => f.id) =
    (fs.map (fun f => f.id)).filter (fun x => decide (x ∉ del)) := by
  induction fs with
  | nil => rfl
  | cons f rest ih =>
    by_cases h : f.id ∈ del
    · simp only [List.filter_cons, List.map_cons, h]
      simpa using ih
    · simp only [List.filter_cons, List.map_cons, h]
      simpa using ih

/-- Claim C4: for an id present in a well-formed (rank-ordered) forest,
`remove(id, confirm=false)` returns `(true, names)` without mutating, where
`names` are exactly the names of the node and its transitive descendants;
`remove(id, confirm=true)` deletes exactly the reachable subtree, strips the
deleted ids from all surviving `children` lists, and leaves the rest of the
state alone; for an id with no matching node and no node naming it as
parent, both modes return `(false, [])` and change nothing. -/
theorem claim_C4_remove (s : FMState) (i : Int) :
    (∀ (nd : Formula) (rank : Int → Nat), get_formula_by_id s.formulas i = some nd →
      RankedBy s.formulas rank →
      (remove_formula s i false = ((true, removedNames s.formulas i), s, 0) ∧
        removedNames s.formulas i ≠ []) ∧
      (∀ x : Int, x ∈ get_descendants s.formulas i ↔ Reaches s.formulas i x) ∧
      (remove_formula s i true =
        ((true, removedNames s.formulas i),
          { s with formulas := cleanedFormulas s.formulas i }, 1) ∧
       (cleanedFormulas s.formulas i).map (fun f => f.id) =
          (s.formulas.map (fun f => f.id)).filter
            (fun x => decide (x ∉ get_descendants s.formulas i)) ∧
       (∀ g ∈ cleanedFormulas s.formulas i, ∀ c ∈ g.children,
          ¬ Reaches s.formulas i c))) ∧
    ((∀ f ∈ s.formulas, f.id ≠ i) → (∀ f ∈ s.formulas, f.parent ≠ some i) →
      ∀ c : Bool, remove_formula s i c = ((false, []), s, 0)) := by
  constructor
  · intro nd rank hnd hrank
    have hmem : nd ∈ s.formulas := List.mem_of_find?_eq_some hnd
    have hid : nd.id = i := by simpa using List.find?_some hnd
    have hndf : nd ∈ s.formulas.filter
        (fun f => decide (f.id ∈ get_descendants s.formulas i)) :=
      List.mem_filter.mpr ⟨hmem, by simp [hid, self_mem_get_descendants]⟩
    have hne0 : removedNames s.formulas i ≠ [] := by
      unfold removedNames
      exact List.ne_nil_of_mem (List.mem_map_of_mem _ hndf)
    have hfound := remove_formula_found_eq s i (isEmpty_false_of_ne_nil_str hne0)
    refine ⟨⟨hfound.1, hne0⟩,
      fun x => mem_descend_iff_reaches s.formulas rank hrank i x,
      hfound.2, ?_, ?_⟩
    · unfold cleanedFormulas
      exact map_id_filter_children s.formulas (get_descendants s.formulas i)
    · intro g hg c hc
      unfold cleanedFormulas at hg
      obtain ⟨f, hf, rfl⟩ := List.mem_map.mp hg
      simp only at hc
      have hc2 := List.mem_filter.mp hc
      have hnot : c ∉ get_descendants s.formulas i := by simpa using hc2.2
      intro hreach
      exact hnot ((mem_descend_iff_reaches s.formulas rank hrank i c).mpr hreach)
  · intro hno hnopar c
    have hnil : s.formulas.filter (fun f => f.parent == some i) = [] := by
      rw [List.filter_eq_nil_iff]
      intro f hf
      simp [hnopar f hf]
    have hdesc : get_descendants s.formulas i = [i] := by
      unfold get_descendants
      simp [descend, hnil]
    have hnames2 : (List.map (fun f => f.name)
        (List.filter (fun f => decide (f.id ∈ get_descendants s.formulas i)) s.formulas)) =
          ([] : List String) := by
      rw [hdesc]
      have : List.filter (fun f => decide (f.id ∈ ([i] : List Int))) s.formulas = [] := by
        rw [List.filter_eq_nil_iff]
        intro f hf
        simp [hno f hf]
      rw [this]
      rfl
    simp only [remove_formula]
    rw [hnames2]
    rfl

theorem claim_C4_witness :
    (remove_formula (defaultState 0) 2 false).1 = (true, ["B定式", "D定式"]) ∧
    (remove_formula (defaultState 0) 2 false).2.1 = defaultState 0 ∧
    Reaches (defaultState 0).formulas 2 4 ∧
    remove_formula (defaultState 0) 99 true = ((false, []), defaultState 0, 0) := by
  have hrank : RankedBy (defaultState 0).formulas Int.toNat := by
    intro f hf p hp
    simp only [defaultState, defaultFormulas, List.mem_cons,
      List.not_mem_nil, or_false] at hf
    rcases hf with rfl | rfl | rfl | rfl
    · exact absurd hp (by simp)
    · injection hp with h
      subst h
      decide
    · injection hp with h
      subst h
      decide
    · injection hp with h
      subst h
      decide
  have h := claim_C4_remove (defaultState 0) 2
  have h1 := h.1
    { id := 2, name := "B定式", parent := some 1, children := [4],
      status := "活跃", last_active_time := some 0 }
    Int.toNat (by decide) hrank
  have e1 : removedNames (defaultState 0).formulas 2 = ["B定式", "D定式"] := by decide
  refine ⟨?_, ?_, ?_, ?_⟩
  · rw [h1.1.1, e1]
  · rw [h1.1.1]
  · exact (h1.2.1 4).mp (by decide)
  · exact (claim_C4_remove (defaultState 0) 99).2 (by decide) (by decide) true

/-! ## Lemmas about `appendChildToParent` (the children-index update of
`add_formula`) -/

theorem appendChild_map_id (fs : List Formula) (p nid : Int) :
    (appendChildToParent fs p nid).map (fun f => f.id) = fs.map (fun f => f.id) := by
  induction fs with
  | nil => rfl
  | cons f rest ih =>
    by_cases h : f.id = p
    · simp [appendChildToParent, h]
    · simp only [appendChildToParent]
      rw [if_neg (by simp [h])]
      simp [ih]

theorem appendChild_mem_forward (fs : List Formula) (p nid : Int) :
    ∀ g ∈ appendChildToParent fs p nid, ∃ f ∈ fs,
      g.id = f.id ∧ g.parent = f.parent ∧
      (g.children = f.children ∨ (f.id = p ∧ g.children = f.children ++ [nid])) := by
  induction fs with
  | nil =>
    intro g hg
    simp [appendChildToParent] at hg
  | cons f rest ih =>
    intro g hg
    by_cases h : f.id = p
    · simp only [appendChildToParent] at hg
      rw [if_pos (by simp [h])] at hg
      rcases List.mem_cons.mp hg with rfl | hg2
      · exact ⟨f, List.mem_cons_self f rest, rfl, rfl, Or.inr ⟨h, rfl⟩⟩
      · exact ⟨g, List.mem_cons_of_mem f hg2, rfl, rfl, Or.inl rfl⟩
    · simp only [appendChildToParent] at hg
      rw [if_neg (by simp [h])] at hg
      rcases List.mem_cons.mp hg with rfl | hg2
      · exact ⟨g, List.mem_cons_self g rest, rfl, rfl, Or.inl rfl⟩
      · obtain ⟨f2, hf2, hrest⟩ := ih g hg2
        exact ⟨f2, List.mem_cons_of_mem f hf2, hrest⟩

theorem appendChild_mem_backward (fs : List Formula) (p nid : Int) :
    ∀ f ∈ fs, ∃ g ∈ appendChildToParent fs p nid,
      g.id = f.id ∧ g.parent = f.parent ∧
      (g.children = f.children ∨ (f.id = p ∧ g.children = f.children ++ [nid])) := by
  induction fs with
  | nil =>
    intro f hf
    simp at hf
  | cons f0 rest ih =>
    intro f hf
    by_cases h : f0.id = p
    · rcases List.mem_cons.mp hf with rfl | hf2
      · refine ⟨{ f with children := f.children ++ [nid] }, ?_, rfl, rfl, Or.inr ⟨h, rfl⟩⟩
        simp only [appendChildToParent]
        rw [if_pos (by simp [h])]
        exact List.mem_cons_self _ _
      · refine ⟨f, ?_, rfl, rfl, Or.inl rfl⟩
        simp only [appendChildToParent]
        rw [if_pos (by simp [h])]
        exact List.mem_cons_of_mem _ hf2
    · rcases List.mem_cons.mp hf with rfl | hf2
      · refine ⟨f, ?_, rfl, rfl, Or.inl rfl⟩
        simp only [appendChildToParent]
        rw [if_neg (by simp [h])]
        exact List.mem_cons_self _ _
      · obtain ⟨g, hg, hrest⟩ := ih f hf2
        refine ⟨g, ?_, hrest⟩
        simp only [appendChildToParent]
        rw [if_neg (by simp [h])]
        exact List.mem_cons_of_mem _ hg

theorem appendChild_modified (fs : List Formula) (p nid : Int)
    (hnodup : NodupIds fs) :
    ∀ g ∈ appendChildToParent fs p nid, g.id = p → (∃ f ∈ fs, f.id = p) →
      ∃ f ∈ fs, f.id = p ∧ g.parent = f.parent ∧ g.children = f.children ++ [nid] := by
  induction fs with
  | nil =>
    intro g hg
    simp [appendChildToParent] at hg
  | cons f0 rest ih =>
    intro g hg hgid _
    by_cases h : f0.id = p
    · simp only [appendChildToParent] at hg
      rw [if_pos (by simp [h])] at hg
      rcases List.mem_cons.mp hg with rfl | hg2
      · exact ⟨f0, List.mem_cons_self _ _, h, rfl, rfl⟩
      · exfalso
        unfold NodupIds at hnodup
        rw [List.map_cons, List.nodup_cons] at hnodup
        exact hnodup.1 (by
          rw [h, ← hgid]
          exact List.mem_map.mpr ⟨g, hg2, rfl⟩)
    · simp only [appendChildToParent] at hg
      rw [if_neg (by simp [h])] at hg
      rcases List.mem_cons.mp hg with rfl | hg2
      · exact absurd hgid h
      · have hnodup2 : NodupIds rest := by
          unfold NodupIds at hnodup ⊢
          rw [List.map_cons, List.nodup_cons] at hnodup
          exact hnodup.2
        obtain ⟨f2, hf2, hfid2, -, -⟩ := appendChild_mem_forward rest p nid g hg2
        have hex2 : ∃ f ∈ rest, f.id = p := ⟨f2, hf2, by rw [← hfid2]; exact hgid⟩
        obtain ⟨f, hf, hrest⟩ := ih hnodup2 g hg2 hgid hex2
        exact ⟨f, List.mem_cons_of_mem _ hf, hrest⟩

/-! ## Well-formedness preservation -/

theorem id_lt_newFormulaId (fs : List Formula) :
    ∀ f ∈ fs, f.id < newFormulaId fs := by
  intro f hf
  have h := le_max_getD_of_mem (fs.map (fun f => f.id)) f.id
    (List.mem_map.mpr ⟨f, hf, rfl⟩)
  unfold newFormulaId
  omega

theorem wf_append_new_root (fs : List Formula) (newF : Formula)
    (hwf : WF fs) (hpar : newF.parent = none) (hchild : newF.children = [])
    (hfresh : ∀ f ∈ fs, f.id < newF.id) :
    WF (fs ++ [newF]) := by
  obtain ⟨⟨hc1, hc2⟩, hnd, hpe, rank, hrank⟩ := hwf
  have hidfresh : ∀ f ∈ fs, f.id ≠ newF.id := fun f hf => ne_of_lt (hfresh f hf)
  have hparfresh : ∀ f ∈ fs, f.parent ≠ some newF.id := by
    intro f hf hcon
    obtain ⟨g, hg, hgid⟩ := hpe f hf newF.id hcon
    exact hidfresh g hg hgid
  refine ⟨⟨?_, ?_⟩, ?_, ?_, rank, ?_⟩
  · intro g hg c hc
    rcases List.mem_append.mp hg with hg2 | hg2
    · obtain ⟨m, hm, hmp, hmi⟩ := hc1 g hg2 c hc
      exact ⟨m, List.mem_append_left _ hm, hmp, hmi⟩
    · rw [List.mem_singleton.mp hg2, hchild] at hc
      simp at hc
  · intro m hm g hg hmp
    rcases List.mem_append.mp hm with hm2 | hm2
    · rcases List.mem_append.mp hg with hg2 | hg2
      · exact hc2 m hm2 g hg2 hmp
      · rw [List.mem_singleton.mp hg2] at hmp
        exact absurd hmp (hparfresh m hm2)
    · rw [List.mem_singleton.mp hm2, hpar] at hmp
      exact Option.noConfusion hmp
  · unfold NodupIds
    rw [List.map_append, List.nodup_append]
    refine ⟨hnd, List.nodup_singleton _, ?_⟩
    intro x hx
    obtain ⟨f, hf, rfl⟩ := List.mem_map.mp hx
    simp only [List.map_cons, List.map_nil, List.mem_singleton]
    exact fun hcon => hidfresh f hf hcon
  · intro f hf p hp
    rcases List.mem_append.mp hf with hf2 | hf2
    · obtain ⟨g, hg, hgid⟩ := hpe f hf2 p hp
      exact ⟨g, List.mem_append_left _ hg, hgid⟩
    · rw [List.mem_singleton.mp hf2, hpar] at hp
      exact Option.noConfusion hp
  · intro f hf p hp
    rcases List.mem_append.mp hf with hf2 | hf2
    · exact hrank f hf2 p hp
    · rw [List.mem_singleton.mp hf2, hpar] at hp
      exact Option.noConfusion hp

theorem wf_append_new_child (fs : List Formula) (q : Int) (newF : Formula)
    (hwf : WF fs) (hpar : newF.parent = some q) (hchild : newF.children = [])
    (hex : ∃ f ∈ fs, f.id = q)
    (hfresh : ∀ f ∈ fs, f.id < newF.id) :
    WF (appendChildToParent fs q newF.id ++ [newF]) := by
  obtain ⟨⟨hc1, hc2⟩, hnd, hpe, rank, hrank⟩ := hwf
  have hidfresh : ∀ f ∈ fs, f.id ≠ newF.id := fun f hf => ne_of_lt (hfresh f hf)
  have hparfresh : ∀ f ∈ fs, f.parent ≠ some newF.id := by
    intro f hf hcon
    obtain ⟨g, hg, hgid⟩ := hpe f hf newF.id hcon
    exact hidfresh g hg hgid
  have hqfresh : q ≠ newF.id := by
    obtain ⟨f, hf, rfl⟩ := hex
    exact hidfresh f hf
  refine ⟨⟨?_, ?_⟩, ?_, ?_, ?_⟩
  · -- every child reference resolves to a node with the right parent
    intro g hg c hc
    rcases List.mem_append.mp hg with hg2 | hg2
    · obtain ⟨f, hf, hgi, hgp, hch⟩ := appendChild_mem_forward fs q newF.id g hg2
      have hold : c ∈ f.children → ∃ m ∈ appendChildToParent fs q newF.id ++ [newF],
          m.parent = some g.id ∧ m.id = c := by
        intro hcf
        obtain ⟨m, hm, hmp, hmi⟩ := hc1 f hf c hcf
        obtain ⟨m2, hm2, hm2i, hm2p, -⟩ := appendChild_mem_backward fs q newF.id m hm
        refine ⟨m2, List.mem_append_left _ hm2, ?_, ?_⟩
        · rw [hm2p, hmp, hgi]
        · rw [hm2i, hmi]
      rcases hch with hch | ⟨hfq, hch⟩
      · exact hold (hch ▸ hc)
      · rw [hch] at hc
        rcases List.mem_append.mp hc with hc2 | hc2
        · exact hold hc2
        · refine ⟨newF, List.mem_append_right _ (List.mem_singleton_self _), ?_,
            (List.mem_singleton.mp hc2).symm⟩
          rw [hpar, hgi, hfq]
    · rw [List.mem_singleton.mp hg2, hchild] at hc
      simp at hc
  · -- every parent link is indexed in the parent's children list
    intro m hm g hg hmp
    rcases List.mem_append.mp hm with hm2 | hm2
    · obtain ⟨fm, hfm, hmi, hmpeq, hmch⟩ := appendChild_mem_forward fs q newF.id m hm2
      rcases List.mem_append.mp hg with hg2 | hg2
      · obtain ⟨fg, hfg, hgi, hgp, hgch⟩ := appendChild_mem_forward fs q newF.id g hg2
        have hin : fm.id ∈ fg.children := by
          apply hc2 fm hfm fg hfg
          rw [← hmpeq, hmp, hgi]
        have hmid : m.id ∈ fg.children := by rw [hmi]; exact hin
        rcases hgch with hgch | ⟨-, hgch⟩
        · rw [hgch]; exact hmid
        · rw [hgch]; exact List.mem_append_left _ hmid
      · exfalso
        rw [List.mem_singleton.mp hg2] at hmp
        rw [hmpeq] at hmp
        exact hparfresh fm hfm hmp
    · rw [List.mem_singleton.mp hm2] at hmp ⊢
      rw [hpar] at hmp
      have hgq : g.id = q := by injection hmp with h; exact h.symm
      rcases List.mem_append.mp hg with hg2 | hg2
      · obtain ⟨f, hf, hfq, -, hch⟩ :=
          appendChild_modified fs q newF.id hnd g hg2 hgq hex
        rw [hch]
        exact List.mem_append_right _ (List.mem_singleton_self _)
      · exfalso
        rw [List.mem_singleton.mp hg2] at hgq
        exact hqfresh hgq.symm
  · unfold NodupIds
    rw [List.map_append, List.nodup_append, appendChild_map_id]
    refine ⟨hnd, List.nodup_singleton _, ?_⟩
    intro x hx
    obtain ⟨f, hf, rfl⟩ := List.mem_map.mp hx
    simp only [List.map_cons, List.map_nil, List.mem_singleton]
    exact fun hcon => hidfresh f hf hcon
  · intro g hg p hp
    rcases List.mem_append.mp hg with hg2 | hg2
    · obtain ⟨f, hf, -, hgp, -⟩ := appendChild_mem_forward fs q newF.id g hg2
      rw [hgp] at hp
      obtain ⟨g2, hg2m, hg2i⟩ := hpe f hf p hp
      obtain ⟨g3, hg3, hg3i, -, -⟩ := appendChild_mem_backward fs q newF.id g2 hg2m
      exact ⟨g3, List.mem_append_left _ hg3, by rw [hg3i, hg2i]⟩
    · rw [List.mem_singleton.mp hg2, hpar] at hp
      obtain ⟨f, hf, rfl⟩ := hex
      obtain ⟨g3, hg3, hg3i, -, -⟩ := appendChild_mem_backward fs f.id newF.id f hf
      refine ⟨g3, List.mem_append_left _ hg3, ?_⟩
      exact hg3i.trans (Option.some.inj hp)
  · refine ⟨fun x => if x = newF.id then rank q + 1 else rank x, ?_⟩
    intro g hg p hp
    rcases List.mem_append.mp hg with hg2 | hg2
    · obtain ⟨f, hf, hgi, hgp, -⟩ := appendChild_mem_forward fs q newF.id g hg2
      rw [hgp] at hp
      have hpfresh : p ≠ newF.id := by
        intro hcon
        rw [hcon] at hp
        exact hparfresh f hf hp
      have hgfresh : g.id ≠ newF.id := by
        rw [hgi]
        exact hidfresh f hf
      show (if p = newF.id then rank q + 1 else rank p) <
        (if g.id = newF.id then rank q + 1 else rank g.id)
      rw [if_neg hpfresh, if_neg hgfresh, hgi]
      exact hrank f hf p hp
    · rw [List.mem_singleton.mp hg2] at hp ⊢
      rw [hpar] at hp
      injection hp with h
      subst h
      show (if q = newF.id then rank q + 1 else rank q) <
        (if newF.id = newF.id then rank q + 1 else rank newF.id)
      rw [if_neg hqfresh, if_pos rfl]
      omega

theorem wf_add (s : FMState) (today : Int) (name : String) (parent_id : Option Int)
    (hwf : WF s.formulas) (hgood : GoodOp s (.add today name parent_id)) :
    WF (add_formula s today name parent_id).2.1.formulas := by
  unfold add_formula
  by_cases h1 : (s.last_addition_date == some today) = true
  · rw [if_pos h1]
    exact hwf
  · rw [if_neg h1]
    by_cases h2 : (pyStrip name == "") = true
    · rw [if_pos h2]
      exact hwf
    · rw [if_neg h2]
      by_cases h3 :
          (pyTruthyOptInt parent_id && !(s.formulas.any (fun f => parent_id == some f.id))) = true
      · rw [if_pos h3]
        exact hwf
      · rw [if_neg h3]
        dsimp only
        rcases hgood with hnone | ⟨q, rfl, hq0, hex⟩
        · subst hnone
          rw [if_neg (by decide)]
          exact wf_append_new_root s.formulas
            { id := newFormulaId s.formulas, name := pyStrip name, parent := none,
              children := [], status := "未执行", last_active_time := none }
            hwf rfl rfl (id_lt_newFormulaId s.formulas)
        · have ht : pyTruthyOptInt (some q) = true := by simp [pyTruthyOptInt, hq0]
          rw [if_pos ht]
          exact wf_append_new_child s.formulas q
            { id := newFormulaId s.formulas, name := pyStrip name, parent := some q,
              children := [], status := "未执行", last_active_time := none }
            hwf rfl rfl hex (id_lt_newFormulaId s.formulas)

theorem wf_cleaned (fs : List Formula) (i : Int) (hwf : WF fs) :
    WF (cleanedFormulas fs i) := by
  obtain ⟨⟨hc1, hc2⟩, hnd, hpe, rank, hrank⟩ := hwf
  have hdel : ∀ x, x ∈ get_descendants fs i ↔ Reaches fs i x :=
    fun x => mem_descend_iff_reaches fs rank hrank i x
  refine ⟨⟨?_, ?_⟩, ?_, ?_, rank, ?_⟩
  · intro g hg c hc
    obtain ⟨f, hff, rfl⟩ := List.mem_map.mp hg
    have hfmem := List.mem_filter.mp hff
    have hfdel : f.id ∉ get_descendants fs i := by simpa using hfmem.2
    simp only at hc
    have hcm := List.mem_filter.mp hc
    have hcdel : c ∉ get_descendants fs i := by simpa using hcm.2
    obtain ⟨m, hm, hmp, hmi⟩ := hc1 f hfmem.1 c hcm.1
    refine ⟨{ m with children :=
        m.children.filter (fun c2 => decide (c2 ∉ get_descendants fs i)) }, ?_, hmp, hmi⟩
    exact List.mem_map.mpr
      ⟨m, List.mem_filter.mpr ⟨hm, by simp [hmi, hcdel]⟩, rfl⟩
  · intro m hm g hg hmp
    obtain ⟨fm, hfmf, rfl⟩ := List.mem_map.mp hm
    obtain ⟨fg, hfgf, rfl⟩ := List.mem_map.mp hg
    have hfmmem := List.mem_filter.mp hfmf
    have hfgmem := List.mem_filter.mp hfgf
    have hfmdel : fm.id ∉ get_descendants fs i := by simpa using hfmmem.2
    have hin : fm.id ∈ fg.children := hc2 fm hfmmem.1 fg hfgmem.1 hmp
    exact List.mem_filter.mpr ⟨hin, by simpa using hfmdel⟩
  · unfold NodupIds cleanedFormulas
    rw [map_id_filter_children]
    exact hnd.filter _
  · intro g hg p hp
    obtain ⟨f, hff, rfl⟩ := List.mem_map.mp hg
    have hfmem := List.mem_filter.mp hff
    have hfdel : f.id ∉ get_descendants fs i := by simpa using hfmem.2
    obtain ⟨g2, hg2, hg2i⟩ := hpe f hfmem.1 p hp
    have hpdel : p ∉ get_descendants fs i := by
      intro hpin
      have hreach2 : Reaches fs i f.id :=
        Relation.ReflTransGen.tail ((hdel p).mp hpin) ⟨f, hfmem.1, hp, rfl⟩
      exact hfdel ((hdel f.id).mpr hreach2)
    refine ⟨{ g2 with children :=
        g2.children.filter (fun c2 => decide (c2 ∉ get_descendants fs i)) }, ?_, hg2i⟩
    exact List.mem_map.mpr
      ⟨g2, List.mem_filter.mpr ⟨hg2, by simp [hg2i, hpdel]⟩, rfl⟩
  · intro g hg p hp
    obtain ⟨f, hff, rfl⟩ := List.mem_map.mp hg
    exact hrank f (List.mem_filter.mp hff).1 p hp

theorem wf_remove (s : FMState) (i : Int) (c : Bool) (hwf : WF s.formulas) :
    WF (remove_formula s i c).2.1.formulas := by
  by_cases hne : ((s.formulas.filter
      (fun f => decide (f.id ∈ get_descendants s.formulas i))).map
        (fun f => f.name)).isEmpty = true
  · simp only [remove_formula]
    rw [if_pos hne]
    exact hwf
  · have hne2 : (removedNames s.formulas i).isEmpty = false := by
      unfold removedNames
      revert hne
      cases ((s.formulas.filter
        (fun f => decide (f.id ∈ get_descendants s.formulas i))).map
          (fun f => f.name)).isEmpty <;> simp
    have hfound := remove_formula_found_eq s i hne2
    cases c with
    | false =>
      rw [hfound.1]
      exact hwf
    | true =>
      rw [hfound.2]
      exact wf_cleaned s.formulas i hwf

/-- Counterexample to claim C2 as stated: a single-node state whose node has
id `0` satisfies the children/parent consistency invariant, yet one `add`
with `parent_id = 0` (truthiness makes the source skip both the parent check
and the children-index update) yields a state that violates it. -/
theorem claim_C2_counterexample :
    ChildrenInv c2CexState.formulas ∧
    ¬ ChildrenInv (applySeq c2CexState [FMOp.add 1 "x" (some 0)]).formulas := by
  constructor
  · refine ⟨?_, ?_⟩ <;> decide
  · intro hcon
    have h := hcon.2
      { id := 1, name := "x", parent := some 0, children := [],
        status := "未执行", last_active_time := none }
      (by decide)
      { id := 0, name := "R", parent := none, children := [],
        status := "未执行", last_active_time := none }
      (by decide) rfl
    simp at h

/-- Claim C2 (amended): the full well-formedness invariant — children/parent
index consistency together with unique ids, resolvable parent references and
an acyclic parent relation — is preserved by every `remove` (confirmed or
not) and by every `add` whose `parent_id` is absent or the nonzero id of an
existing node; bare children/parent consistency alone is not preserved (see
the counterexample with `parent_id = 0`). -/
theorem claim_C2_invariant_preservation (s : FMState) (ops : List FMOp)
    (hwf : WF s.formulas) (hgood : GoodSeq s ops) :
    WF (applySeq s ops).formulas := by
  induction ops generalizing s with
  | nil => exact hwf
  | cons op rest ih =>
    obtain ⟨hop, hrest⟩ := hgood
    have hwf2 : WF (applyOp s op).formulas := by
      cases op with
      | add t n p => exact wf_add s t n p hwf hop
      | remove j c => exact wf_remove s j c hwf
    exact ih (applyOp s op) hwf2 hrest

theorem default_parentsExist : ParentsExist (defaultState 0).formulas := by
  intro f hf p hp
  simp only [defaultState, defaultFormulas, List.mem_cons,
    List.not_mem_nil, or_false] at hf
  rcases hf with rfl | rfl | rfl | rfl
  · exact absurd hp (by simp)
  · injection hp with h
    subst h
    decide
  · injection hp with h
    subst h
    decide
  · injection hp with h
    subst h
    decide

theorem default_ranked : RankedBy (defaultState 0).formulas Int.toNat := by
  intro f hf p hp
  simp only [defaultState, defaultFormulas, List.mem_cons,
    List.not_mem_nil, or_false] at hf
  rcases hf with rfl | rfl | rfl | rfl
  · exact absurd hp (by simp)
  · injection hp with h
    subst h
    decide
  · injection hp with h
    subst h
    decide
  · injection hp with h
    subst h
    decide

theorem claim_C2_witness :
    WF (defaultState 0).formulas ∧
    GoodSeq (defaultState 0) [FMOp.add 0 "n" (some 1), FMOp.remove 2 true] ∧
    WF (applySeq (defaultState 0) [FMOp.add 0 "n" (some 1), FMOp.remove 2 true]).formulas := by
  have hwf : WF (defaultState 0).formulas :=
    ⟨⟨by decide, by decide⟩, by unfold NodupIds; decide,
      default_parentsExist, Int.toNat, default_ranked⟩
  have hgood : GoodSeq (defaultState 0) [FMOp.add 0 "n" (some 1), FMOp.remove 2 true] :=
    ⟨Or.inr ⟨1, rfl, by decide, by decide⟩, trivial, trivial⟩
  exact ⟨hwf, hgood, claim_C2_invariant_preservation (defaultState 0) _ hwf hgood⟩
